import Mathlib

/-!
Verification of the shader-module resolution core of the repository
(src/lib.rs and src/source.rs), via a shallow embedding in Lean.

Rust machine integers are modelled as Int with explicit range checks,
HashMap as an association list with overwriting insert, HashSet as a
deduplicated list whose iteration order is an explicit oracle parameter,
and fallible operations return Except or Option.
-/

namespace WgslOil

/-! ### Constant typing (src/lib.rs, TypedValue and its conversion) -/

/-- Model of syn literal kinds relevant to the conversion: an integer
literal (its numeric value), a boolean literal, or any other literal. -/
inductive SynLit where
  | bool (b : Bool)
  | int (n : Int)
  | other
  deriving DecidableEq, Repr

/-- Model of the TypedValue struct of src/lib.rs: a type identifier
(one of Bool, Int, UInt as enforced by its Parse impl) and a literal. -/
structure TypedValue where
  ty : String
  value : SynLit
  deriving DecidableEq, Repr

/-- Model of naga_oil ShaderDefValue (the payloads carried by the source:
bool, i32, u32; the integers are kept as Int, in range by construction of
the conversion below). -/
inductive ShaderDefValue where
  | Bool (b : Bool)
  | Int (n : Int)
  | UInt (n : Int)
  deriving DecidableEq, Repr

/-- Model of base10_parse on an integer literal targeting i32: succeeds
exactly when the value fits the signed 32-bit range. -/
def base10ParseI32 (n : Int) : Option Int :=
  if -(2 ^ 31) ≤ n ∧ n < 2 ^ 31 then some n else none

/-- Model of base10_parse on an integer literal targeting u32: succeeds
exactly when the value fits the unsigned 32-bit range. -/
def base10ParseU32 (n : Int) : Option Int :=
  if 0 ≤ n ∧ n < 2 ^ 32 then some n else none

/-- Model of the From TypedValue for ShaderDefValue impl of src/lib.rs.
A panic in the source is modelled as Except.error carrying the panic
message. The match arms and their guards follow the source order. -/
def shaderDefValueFromTyped (v : TypedValue) : Except String ShaderDefValue :=
  match v.ty, v.value with
  | "Bool", SynLit.bool b => Except.ok (ShaderDefValue.Bool b)
  | "Bool", _ => Except.error "Expected a boolean literal for Bool() constant"
  | "Int", SynLit.int n =>
      match base10ParseI32 n with
      | some m => Except.ok (ShaderDefValue.Int m)
      | none => Except.error "Expected i32 literal for Int() constant"
  | "Int", _ => Except.error "Expected i32 literal for Int() constant"
  | "UInt", SynLit.int n =>
      match base10ParseU32 n with
      | some m => Except.ok (ShaderDefValue.UInt m)
      | none => Except.error "Expected u32 literal for UInt() constant"
  | "UInt", _ => Except.error "Expected u32 literal for UInt() constant"
  | _, _ => Except.error "unreachable: Parse only admits Bool, Int, UInt"

/-! ### Association-list map with HashMap insert semantics -/

/-- HashMap insert: overwrite the binding for the key if present,
otherwise append it. -/
def mapInsert {α : Type} (m : List (String × α)) (k : String) (v : α) :
    List (String × α) :=
  match m with
  | [] => [(k, v)]
  | (k', v') :: rest =>
      if k' = k then (k, v) :: rest else (k', v') :: mapInsert rest k v

/-! ### Shader-def construction (src/source.rs compose, lines 106-119) -/

/-- The loop over caller constants: convert each and insert into the map,
overwriting. A conversion panic aborts the whole invocation. -/
def insertConstants (m : List (String × ShaderDefValue)) :
    List (String × TypedValue) → Except String (List (String × ShaderDefValue))
  | [] => Except.ok m
  | (name, tv) :: rest =>
      match shaderDefValueFromTyped tv with
      | Except.error e => Except.error e
      | Except.ok v => insertConstants (mapInsert m name v) rest

/-- Model of the shader-def map construction in compose: when the build
has debug assertions, insert the implicit __DEBUG flag first, then insert
every caller-supplied constant in order. -/
def buildShaderDefs (debugAssertions : Bool)
    (constants : List (String × TypedValue)) :
    Except String (List (String × ShaderDefValue)) :=
  insertConstants
    (if debugAssertions then mapInsert [] "__DEBUG" (ShaderDefValue.Bool true) else [])
    constants

/-! ### Substring and export stripping (src/lib.rs line 197) -/

/-- Whether pat occurs at the head of s. -/
def headMatches : List Char → List Char → Bool
  | [], _ => true
  | _ :: _, [] => false
  | p :: ps, c :: cs => p = c && headMatches ps cs

/-- Whether pat occurs anywhere in s (contiguously). -/
def hasSubstr (pat : List Char) : List Char → Bool
  | [] => pat.isEmpty
  | c :: rest => headMatches pat (c :: rest) || hasSubstr pat rest

/-- Model of str::replace of the seven-character marker at-export by the
empty string: remove non-overlapping occurrences left to right, scanning
the original text. The first argument counts characters of a recognized
marker that remain to be skipped, so the recursion is structural in the
text. -/
def stripLoop : Nat → List Char → List Char
  | _, [] => []
  | 0, c :: rest =>
      if headMatches "@export".data (c :: rest) then stripLoop 6 rest
      else c :: stripLoop 0 rest
  | k + 1, _ :: rest => stripLoop k rest

/-- Removal of every (non-overlapping, left to right) occurrence of the
at-export marker. -/
def stripExportChars (s : List Char) : List Char := stripLoop 0 s

/-- String-level wrapper of the export stripping. -/
def stripExport (s : String) : String := String.mk (stripExportChars s.data)

/-! ### Include registration (src/lib.rs, MacroInput parse, includes arm) -/

/-- A file on disk as seen by the registration loop: the optional module
name declared in its preprocessor data, its requirement list (both as
returned by get_preprocessor_data, an external collaborator), and its raw
text. -/
structure VirtualFile where
  declaredName : Option String
  reqs : List String
  text : String
  deriving DecidableEq, Repr

/-- A filesystem entry: a regular file, or a directory listing the paths
of its entries (in read_dir order). -/
inductive FsEntry where
  | file (f : VirtualFile)
  | dir (entries : List String)
  deriving DecidableEq, Repr

/-- The filesystem visible to the registration loop: path to entry. -/
def Filesystem : Type := List (String × FsEntry)

/-- The registry value type of src/lib.rs: (Vec of requirement names,
origin path, processed text). -/
structure RegEntry where
  reqs : List String
  path : String
  text : String
  deriving DecidableEq, Repr

/-- Name computation of src/lib.rs lines 175-183: use the declared
preprocessor name, else the path wrapped in quotes; then a leading
quote-dot-slash is reduced to a bare quote (the trailing quote, when the
fallback produced one, is kept). -/
def includeName (path : String) (f : VirtualFile) : String :=
  let name := f.declaredName.getD ("\"" ++ path ++ "\"")
  if headMatches "\"./".data name.data then "\"" ++ String.mk (name.data.drop 3)
  else name

/-- The registration worklist loop of src/lib.rs lines 153-201. The Rust
Vec is popped from its back; the model keeps the worklist reversed so the
head is the next popped element, and a directory pushes the reverse of
its entry list. Returns the warnings, the new_includes map, and the log
of registrations in processing order; read failures are the syn errors
returned early by the source. Fuel bounds the traversal. -/
def processIncludes (fs : Filesystem) (prior : List (String × RegEntry)) :
    Nat → List String → List (String × RegEntry) → List String →
    List (String × RegEntry) →
    Except String (List String × List (String × RegEntry) × List (String × RegEntry))
  | _, [], newInc, warns, log => Except.ok (warns, newInc, log)
  | 0, _ :: _, _, _, _ => Except.error "model fuel exhausted"
  | fuel + 1, p :: rest, newInc, warns, log =>
      match List.lookup p fs with
      | none => Except.error ("Failed to read file " ++ p)
      | some (FsEntry.dir entries) =>
          processIncludes fs prior fuel (entries.reverse ++ rest) newInc warns log
      | some (FsEntry.file f) =>
          processIncludes fs prior fuel rest
            (mapInsert newInc (includeName p f) ⟨f.reqs, p, stripExport f.text⟩)
            (if (List.lookup (includeName p f) newInc).isSome ∨
                (List.lookup (includeName p f) prior).isSome then
              warns ++ ["warning: duplicate definition for `" ++ includeName p f ++ "`"]
            else warns)
            (log ++ [(includeName p f, (⟨f.reqs, p, stripExport f.text⟩ : RegEntry))])

/-- HashMap extend: insert every binding of the second map into the
first, overwriting (src/lib.rs line 203). -/
def extendMap {α : Type} (base add : List (String × α)) : List (String × α) :=
  add.foldl (fun m kv => mapInsert m kv.1 kv.2) base

/-- The most recent registration recorded in the log for a name. -/
def lastEntryOpt (log : List (String × RegEntry)) (n : String) : Option RegEntry :=
  ((log.filter (fun e => e.1 = n)).getLast?).map (fun e => e.2)

/-- The duplicate-definition warnings the loop is expected to produce for
a registration log: one warning, in processing order, for every event
whose name was registered before it (in the same pass) or was already
present in the prior registry. -/
def dupWarnings (prior : List (String × RegEntry)) :
    List String → List (String × RegEntry) → List String
  | _, [] => []
  | seen, (n, _) :: rest =>
      (if n ∈ seen ∨ (List.lookup n prior).isSome then
        ["warning: duplicate definition for `" ++ n ++ "`"]
      else []) ++ dupWarnings prior (seen ++ [n]) rest

/-- A registration event that stems from a file of the filesystem whose
stored text is the export-stripped raw text. -/
def goodEvent (fs : Filesystem) (e : String × RegEntry) : Prop :=
  ∃ f, List.lookup e.2.path fs = some (FsEntry.file f) ∧
    e.2.text = stripExport f.text ∧ e.2.reqs = f.reqs ∧
    e.1 = includeName e.2.path f

/-- The concrete filesystem of the witness for claim C8: two files that
both declare the module name util. -/
def fsW : Filesystem :=
  [("a.wgsl", FsEntry.file ⟨some "util", [], "x"⟩),
   ("b.wgsl", FsEntry.file ⟨some "util", [], "y"⟩)]

/-! ### Requirement saturation (src/source.rs compose, lines 121-162) -/

/-- The state threaded through the body of the while loop of requirement
saturation: the composer (the list of module names added so far, in
submission order; contains_module is membership and add_composable_module
appends) and the next frontier being accumulated (a hash set, kept as a
deduplicated list in insertion order). -/
structure SatAcc where
  composed : List String
  next : List String
  deriving DecidableEq, Repr

/-- HashSet insert: append the element unless it is present. -/
def insertNew (l : List String) (x : String) : List String :=
  if x ∈ l then l else l ++ [x]

/-- HashSet extend: insert every element in order. -/
def insertAllNew (l : List String) (xs : List String) : List String :=
  xs.foldl insertNew l

/-- The composer after the conditional add of one requirement: the module
is added exactly when every sub-requirement is already present. -/
def newComposed (composed : List String) (r : String) (e : RegEntry) : List String :=
  if ∀ s ∈ e.reqs, s ∈ composed then composed ++ [r] else composed

/-- The body of the for loop inside the saturation while loop, for one
requirement of the frontier: requirements absent from the include
registry are dropped (the filter_map of the source); requirements already
in the composer are skipped entirely (continue); otherwise the module is
added to the composer exactly when every sub-requirement is already
present, and the next frontier receives the sub-requirements that are not
in the composer afterwards, and then the requirement itself. -/
def satProcessOne (includes : List (String × RegEntry)) (acc : SatAcc) (r : String) :
    SatAcc :=
  match List.lookup r includes with
  | none => acc
  | some e =>
      if r ∈ acc.composed then acc
      else
        { composed := newComposed acc.composed r e,
          next := insertNew
            (insertAllNew acc.next
              (e.reqs.filter (fun s => s ∉ newComposed acc.composed r e))) r }

/-- One iteration of the saturation while loop: fold the loop body over
the frontier in the iteration order of the hash set, starting from an
empty next frontier. -/
def satRound (includes : List (String × RegEntry)) (ord : List String)
    (composed : List String) : SatAcc :=
  ord.foldl (satProcessOne includes) ⟨composed, []⟩

/-- The while loop of requirement saturation. The iteration order of the
hash-set frontier is unspecified in the source (HashSet with a random
hash state); the model receives it from an oracle taking the round index
and the frontier. Fuel bounds the number of rounds; none models the while
loop not having exited within the given fuel. -/
def satLoop (includes : List (String × RegEntry))
    (oracle : Nat → List String → List String) :
    Nat → Nat → List String → List String → Option (List String)
  | 0, _, reqs, composed => if reqs = [] then some composed else none
  | fuel + 1, round, reqs, composed =>
      if reqs = [] then some composed
      else
        satLoop includes oracle fuel (round + 1)
          (satRound includes (oracle round reqs) composed).next
          (satRound includes (oracle round reqs) composed).composed

/-- The include registry exhibiting the divergence of claim C5: one
registered include whose sub-requirement is registered nowhere. -/
def includesC5 : List (String × RegEntry) := [("a", ⟨["missing"], "a.wgsl", ""⟩)]

/-- The include registry of the claim C4 counterexample: two registered
includes with no sub-requirements. -/
def includesC4 : List (String × RegEntry) :=
  [("x", ⟨[], "x.wgsl", ""⟩), ("y", ⟨[], "y.wgsl", ""⟩)]

/-- The concrete filesystem of the witness for claim C10: the marker
occurs inside a comment, not annotating any declaration. -/
def fsX : Filesystem :=
  [("c.wgsl", FsEntry.file ⟨some "c", [], "// note @export here"⟩)]

/-- A requirement name is saturable: it is in the include registry and
all of its sub-requirements are hereditarily saturable. This is the
least fixed point the saturation loop computes. -/
inductive SatR (includes : List (String × RegEntry)) : String → Prop where
  | mk : ∀ r e, List.lookup r includes = some e →
      (∀ s ∈ e.reqs, SatR includes s) → SatR includes r

/-- Reachability from a set of root requirements along registry
sub-requirement edges. -/
inductive ReachR (includes : List (String × RegEntry)) (roots : List String) :
    String → Prop where
  | root : ∀ r, r ∈ roots → ReachR includes roots r
  | step : ∀ r e s, ReachR includes roots r → List.lookup r includes = some e →
      s ∈ e.reqs → ReachR includes roots s

/-- A composer state is closed: the sub-requirements of every added
module are added as well. -/
def ClosedC (includes : List (String × RegEntry)) (C : List String) : Prop :=
  ∀ c ∈ C, ∀ e, List.lookup c includes = some e → ∀ s ∈ e.reqs, s ∈ C

/-! ### Import-order composition driver (src/source.rs compose, 164-222) -/

/-- An abstract validated naga module; its contents are produced by the
composition engine, a trusted external dependency. -/
structure NagaModule where
  tag : Nat
  deriving DecidableEq, Repr

/-- Modelled from the spec: module.rs (the import-order module type and
its descriptor construction) is not under src/. One non-root module of
the computed import order, carrying the externally determined outcomes of
the two fallible steps the driver performs on it: building its
composable-module descriptor (failure carries one or more diagnostics,
kept non-empty by construction), and submitting it to the composition
engine (none is success, some carries the formatted diagnostic). -/
structure OrderModule where
  path : String
  desc : Except (String × List String) Unit
  submit : Option String

/-- Modelled from the spec: module.rs is not under src/. The root module
of the import order, with the outcomes of its descriptor construction
and of the final link (make_naga_module). -/
structure RootModule where
  desc : Except (String × List String) Unit
  link : Except String NagaModule

/-- The state threaded through the import-order loop of src/source.rs
lines 171-194: accumulated diagnostics, the dependents pushed so far, and
the paths submitted to add_composable_module in order. -/
structure DriverState where
  errors : List String
  dependents : List String
  submitted : List String
  deriving DecidableEq, Repr

/-- The for loop over the non-root modules of the import order
(src/source.rs lines 172-194): each module is first recorded as a
dependent; a descriptor failure pushes its diagnostics and returns early
(true marks the early return); a submission failure pushes one diagnostic
and the loop continues with the next module. -/
def runImports : List OrderModule → DriverState → DriverState × Bool
  | [], st => (st, false)
  | m :: rest, st =>
      match m.desc with
      | Except.error (e, es) =>
          (⟨st.errors ++ (e :: es), st.dependents ++ [m.path], st.submitted⟩, true)
      | Except.ok _ =>
          runImports rest
            ⟨st.errors ++ (match m.submit with
              | some e => [e]
              | none => []),
             st.dependents ++ [m.path],
             st.submitted ++ [m.path]⟩

/-- The tail of compose after the import-order loop (src/source.rs lines
196-221): after an early return nothing else happens; otherwise, if any
diagnostics have accumulated the root is not linked; otherwise the root
descriptor is built and, if that succeeds, the root is submitted to
make_naga_module for the final link. Returns the final driver state, the
linked module if any, and whether make_naga_module was invoked. -/
def composeAfterOrder (imports : List OrderModule) (root : RootModule)
    (st : DriverState) : DriverState × Option NagaModule × Bool :=
  match runImports imports st with
  | (st', true) => (st', none, false)
  | (st', false) =>
      if st'.errors = [] then
        match root.desc with
        | Except.error (e, es) =>
            ({ st' with errors := st'.errors ++ (e :: es) }, none, false)
        | Except.ok _ =>
            match root.link with
            | Except.ok m => (st', some m, true)
            | Except.error e =>
                ({ st' with errors := st'.errors ++ [e] }, none, true)
      else (st', none, false)

/-! ### Import graph traversal (spec-modelled: imports.rs) -/

/-- Modelled from the spec: imports.rs (ImportOrder::calculate) is not
under src/. The cycle reported for a back-edge: the sequence of names
from the repeated node on the traversal stack back to itself. -/
def cycleOf (stack : List String) (n : String) : List String :=
  (stack.dropWhile (fun x => x ≠ n)) ++ [n]

/-- Modelled from the spec: imports.rs is not under src/. Depth-first
traversal of the file import graph (spec 4.5): a back-edge to a node on
the traversal stack is a cyclic import, reported with the full cycle; on
success nodes are emitted in post-order, so every module follows its
imports and the traversal root comes last. Fuel decreases on every
recursive descent and bounds the traversal; running out of fuel is a
modelling artifact reported as an error. -/
def dfsRun (graph : List (String × List String)) :
    Nat → List String → List String → List String → List String →
    Except (List String) (List String × List String)
  | _, _, visited, order, [] => Except.ok (visited, order)
  | 0, _, _, _, _ :: _ => Except.error ["import traversal fuel exhausted"]
  | fuel + 1, stack, visited, order, n :: rest =>
      if n ∈ stack then Except.error (cycleOf stack n)
      else if n ∈ visited then dfsRun graph fuel stack visited order rest
      else
        match dfsRun graph fuel (stack ++ [n]) visited order
            ((List.lookup n graph).getD []) with
        | Except.error e => Except.error e
        | Except.ok (v, o) => dfsRun graph fuel stack (v ++ [n]) (o ++ [n]) rest

/-- Modelled from the spec: imports.rs is not under src/. The import
order computed from the file graph: the post-order of the depth-first
traversal from the root (the root is its last element), or the cycle. -/
def calculateOrder (graph : List (String × List String)) (rootName : String)
    (fuel : Nat) : Except (List String) (List String) :=
  match dfsRun graph fuel [] [] [] [rootName] with
  | Except.error e => Except.error e
  | Except.ok (_, order) => Except.ok order

/-- Joining names with a separator (structural helper for the diagnostic
text). -/
def joinWith (sep : String) : List String → String
  | [] => ""
  | [x] => x
  | x :: rest => x ++ sep ++ joinWith sep rest

/-- Modelled from the spec: the Display formatting of the cyclic-import
error pushed by compose (src/source.rs line 94 formats the error of
imports.rs); the diagnostic carries every name of the cycle. -/
def cycleErrorMsg (cycle : List String) : String :=
  "cyclic import: " ++ joinWith " imports " cycle

/-- Deduplication of the root requirements (their collection into a
HashSet at src/source.rs lines 125-128). -/
def dedupList (l : List String) : List String := insertAllNew [] l

/-! ### The compose pipeline (src/source.rs compose, lines 101-222) -/

/-- The inputs of one compose invocation: everything the source reads,
with the outcomes of external collaborators (filesystem, preprocessor
data, composition engine) supplied as data, and the hash-set iteration
order supplied as an oracle. -/
structure ComposeInput where
  debugAssertions : Bool
  constants : List (String × TypedValue)
  rootText : Option String
  rootReqs : List String
  includes : List (String × RegEntry)
  satOracle : Nat → List String → List String
  satFuel : Nat
  graph : List (String × List String)
  rootName : String
  graphFuel : Nat
  moduleData : String → OrderModule
  rootData : RootModule

/-- The observable outcome of one compose invocation: the diagnostics and
the linked module of the eventual ShaderResult, plus the submissions made
to the composition engine during the saturation phase and during the
import-order phase, the dependents, and whether the root was linked. -/
structure ComposeOutcome where
  errors : List String
  module : Option NagaModule
  satSubmissions : List String
  orderSubmissions : List String
  dependents : List String
  rootLinked : Bool
  deriving DecidableEq, Repr

/-- The compose method of src/source.rs (101-222) end to end: build the
shader defs (a constant-conversion panic aborts the invocation with no
outcome: none); read the root text (a failed read returns early with no
diagnostic); saturate the requirements through the registry (divergence
of the while loop yields no outcome: none); compute the import order
(spec-modelled imports.rs), pushing the formatted cyclic-import
diagnostic on failure; then drive the import-order submissions and the
final root link. Saturation-phase submissions are the composed names, in
order; the source unwraps them, so they are assumed to succeed. -/
def composeModel (inp : ComposeInput) : Option ComposeOutcome :=
  match buildShaderDefs inp.debugAssertions inp.constants with
  | Except.error _ => none
  | Except.ok _ =>
  match inp.rootText with
  | none => some ⟨[], none, [], [], [], false⟩
  | some _ =>
  match satLoop inp.includes inp.satOracle inp.satFuel 0 (dedupList inp.rootReqs) [] with
  | none => none
  | some sats =>
  match calculateOrder inp.graph inp.rootName inp.graphFuel with
  | Except.error cyc => some ⟨[cycleErrorMsg cyc], none, sats, [], [], false⟩
  | Except.ok order =>
      match composeAfterOrder (order.dropLast.map inp.moduleData) inp.rootData
          ⟨[], [], []⟩ with
      | (stf, m, linked) =>
          some ⟨stf.errors, m, sats, stf.submitted, stf.dependents, linked⟩

/-- Concrete imports of the witness for claim C2: the first submission
fails, the second succeeds. -/
def impsW : List OrderModule :=
  [⟨"m1.wgsl", Except.ok (), some "compose error in m1"⟩,
   ⟨"m2.wgsl", Except.ok (), none⟩]

/-- Concrete root of the witness for claim C2. -/
def rootW : RootModule := ⟨Except.ok (), Except.ok ⟨0⟩⟩

/-- Concrete compose input of the claim C3 counterexample: the root
requires the registry include v and the file a.wgsl, and the file graph
has the cycle a.wgsl imports b.wgsl imports a.wgsl. -/
def inpC3 : ComposeInput where
  debugAssertions := false
  constants := []
  rootText := some "#import v\n#import \"a.wgsl\""
  rootReqs := ["v", "a.wgsl"]
  includes := [("v", ⟨[], "v.wgsl", ""⟩)]
  satOracle := fun _ l => l
  satFuel := 3
  graph := [("root.wgsl", ["a.wgsl"]), ("a.wgsl", ["b.wgsl"]), ("b.wgsl", ["a.wgsl"])]
  rootName := "root.wgsl"
  graphFuel := 9
  moduleData := fun p => ⟨p, Except.ok (), none⟩
  rootData := ⟨Except.ok (), Except.ok ⟨0⟩⟩

/-- Concrete compose input of the witness for claim C1: everything
succeeds and a module is produced. -/
def inpOk : ComposeInput where
  debugAssertions := true
  constants := []
  rootText := some "fn main() \x7b\x7d"
  rootReqs := []
  includes := []
  satOracle := fun _ l => l
  satFuel := 1
  graph := [("root.wgsl", [])]
  rootName := "root.wgsl"
  graphFuel := 2
  moduleData := fun p => ⟨p, Except.ok (), none⟩
  rootData := ⟨Except.ok (), Except.ok ⟨7⟩⟩

/-! ### Import graph building and name reduction (spec-modelled) -/

/-- Modelled from the spec: imports.rs (requirement path resolution) is
not under src/. Paths are segment lists; resolving a requirement against
the directory of the requesting module drops current-directory segments,
so distinct requirement spellings reaching the same file coincide after
resolution (spec 4.4). -/
def resolveReq (dir : List String) (req : List String) : List String :=
  dir ++ req.filter (fun seg => seg ≠ ".")

/-- Modelled from the spec: the Name Reducer (spec 4.6) derives the
canonical composed name of a module from its resolved origin alone, here
by joining the origin segments. -/
def canonName (origin : List String) : String :=
  joinWith "_" origin

/-- A file as the import graph builder sees it: its own requirement
list, each relative to its directory. -/
structure FileNode where
  reqs : List (List String)
  deriving DecidableEq, Repr

/-- Modelled from the spec: imports.rs (the import graph builder, spec
4.4) is not under src/. Process a worklist of (requesting directory,
requirement): each requirement is resolved against the directory; a
module already visited is not read again (each module is added to the
graph exactly once, keyed by its resolved path); otherwise its file is
read (recorded in the read log) and its own requirements are appended to
the worklist. Returns the read log, in order. -/
def buildGraph (fs : List (List String × FileNode)) :
    Nat → List (List String × List String) → List (List String) →
    List (List String) → Except String (List (List String))
  | _, [], _, log => Except.ok log
  | 0, _ :: _, _, _ => Except.error "model fuel exhausted"
  | fuel + 1, (dir, req) :: rest, visited, log =>
      if resolveReq dir req ∈ visited then buildGraph fs fuel rest visited log
      else
        match List.lookup (resolveReq dir req) fs with
        | none => Except.error "file not found"
        | some node =>
            buildGraph fs fuel
              (rest ++ node.reqs.map (fun r => ((resolveReq dir req).dropLast, r)))
              (visited ++ [resolveReq dir req]) (log ++ [resolveReq dir req])

/-- The concrete filesystem of the witness for claim C7: one file with
no further requirements. -/
def fsC7 : List (List String × FileNode) := [(["util.wgsl"], ⟨[]⟩)]

/-- The number of occurrences of a path in the read log. -/
def countOcc (p : List String) : List (List String) → Nat
  | [] => 0
  | q :: rest => (if q = p then 1 else 0) + countOcc p rest

/-! ### Theorems -/

theorem lookup_cons_eq_if {α : Type} (k a : String) (b : α) (es : List (String × α)) :
    List.lookup k ((a, b) :: es) = if k = a then some b else List.lookup k es := by
  by_cases h : k = a
  · simp [List.lookup, h]
  · have hb : (k == a) = false := by simpa using h
    simp [List.lookup, hb, h]

theorem lookup_mapInsert_self {α : Type} (m : List (String × α)) (k : String) (v : α) :
    List.lookup k (mapInsert m k v) = some v := by
  induction m with
  | nil => simp [mapInsert, lookup_cons_eq_if]
  | cons hd tl ih =>
      obtain ⟨a, b⟩ := hd
      by_cases h : a = k
      · simp [mapInsert, h, lookup_cons_eq_if]
      · have h2 : ¬ k = a := fun hc => h hc.symm
        simp [mapInsert, h, lookup_cons_eq_if, h2, ih]

theorem lookup_mapInsert_other {α : Type} (m : List (String × α)) (k k' : String) (v : α)
    (h : k' ≠ k) : List.lookup k' (mapInsert m k v) = List.lookup k' m := by
  induction m with
  | nil => simp [mapInsert, lookup_cons_eq_if, h]
  | cons hd tl ih =>
      obtain ⟨a, b⟩ := hd
      by_cases hak : a = k
      · subst hak
        simp [mapInsert, lookup_cons_eq_if, h]
      · by_cases hka : k' = a
        · simp [mapInsert, hak, lookup_cons_eq_if, hka]
        · simp [mapInsert, hak, lookup_cons_eq_if, hka, ih]

theorem lookup_isSome_iff_mem_keys {α : Type} (m : List (String × α)) (n : String) :
    (List.lookup n m).isSome ↔ n ∈ m.map Prod.fst := by
  induction m with
  | nil => simp [List.lookup]
  | cons hd tl ih =>
      obtain ⟨a, b⟩ := hd
      rw [lookup_cons_eq_if]
      by_cases h : n = a
      · simp [h]
      · have h2 : ¬ a = n := fun hc => h hc.symm
        simp [h, h2, ih]

theorem lookup_eq_none_of_not_mem_keys {α : Type} (m : List (String × α)) (n : String)
    (h : n ∉ m.map Prod.fst) : List.lookup n m = none := by
  have := (lookup_isSome_iff_mem_keys m n).not.mpr h
  cases hl : List.lookup n m with
  | none => rfl
  | some v => rw [hl] at this; simp at this

theorem keys_mapInsert {α : Type} (m : List (String × α)) (k : String) (v : α) :
    (mapInsert m k v).map Prod.fst =
      if k ∈ m.map Prod.fst then m.map Prod.fst else m.map Prod.fst ++ [k] := by
  induction m with
  | nil => simp [mapInsert]
  | cons hd tl ih =>
      obtain ⟨a, b⟩ := hd
      by_cases h : a = k
      · simp [mapInsert, h]
      · have h2 : ¬ k = a := fun hc => h hc.symm
        by_cases hm : k ∈ tl.map Prod.fst
        · simp [mapInsert, h, ih, hm, h2]
        · simp [mapInsert, h, ih, hm, h2]

theorem keys_nodup_mapInsert {α : Type} (m : List (String × α)) (k : String) (v : α)
    (h : (m.map Prod.fst).Nodup) : ((mapInsert m k v).map Prod.fst).Nodup := by
  rw [keys_mapInsert]
  by_cases hm : k ∈ m.map Prod.fst
  · simpa [hm] using h
  · simp only [hm, if_false]
    refine List.Nodup.append h (List.nodup_singleton k) ?_
    intro a ha hb
    rw [List.mem_singleton] at hb
    subst hb
    exact hm ha

theorem lastEntryOpt_append (log : List (String × RegEntry)) (n n' : String) (e : RegEntry) :
    lastEntryOpt (log ++ [(n, e)]) n' =
      if n' = n then some e else lastEntryOpt log n' := by
  unfold lastEntryOpt
  rw [List.filter_append]
  by_cases h : n' = n
  · subst h
    simp [List.filter_cons, List.getLast?_concat]
  · have hne : (decide (n = n')) = false := by
      simp only [decide_eq_false_iff_not]
      exact fun hc => h hc.symm
    rw [if_neg h]
    simp [List.filter_cons, hne]

theorem lastEntryOpt_isSome_iff (log : List (String × RegEntry)) (n : String) :
    (lastEntryOpt log n).isSome ↔ n ∈ log.map Prod.fst := by
  unfold lastEntryOpt
  have hmap : ∀ (o : Option (String × RegEntry)),
      (o.map (fun e => e.2)).isSome = o.isSome := by
    intro o; cases o <;> rfl
  rw [hmap, List.getLast?_isSome]
  constructor
  · intro hne
    obtain ⟨x, hx⟩ := List.exists_mem_of_ne_nil _ hne
    obtain ⟨hxl, hxp⟩ := List.mem_filter.mp hx
    simp only [decide_eq_true_eq] at hxp
    exact List.mem_map.mpr ⟨x, hxl, hxp⟩
  · intro hmem
    obtain ⟨x, hxl, hfst⟩ := List.mem_map.mp hmem
    have hxf : x ∈ log.filter (fun e => decide (e.1 = n)) :=
      List.mem_filter.mpr ⟨hxl, by simp [hfst]⟩
    exact List.ne_nil_of_mem hxf

theorem dupWarnings_append (prior : List (String × RegEntry)) (seen : List String)
    (l : List (String × RegEntry)) (n : String) (e : RegEntry) :
    dupWarnings prior seen (l ++ [(n, e)]) =
      dupWarnings prior seen l ++
        (if n ∈ seen ++ l.map Prod.fst ∨ (List.lookup n prior).isSome then
          ["warning: duplicate definition for `" ++ n ++ "`"]
        else []) := by
  induction l generalizing seen with
  | nil =>
      show dupWarnings prior seen [(n, e)] = _
      simp only [dupWarnings, List.map_nil, List.append_nil, List.nil_append]
  | cons hd tl ih =>
      obtain ⟨a, b⟩ := hd
      have hL : dupWarnings prior seen (((a, b) :: tl) ++ [(n, e)]) =
          (if a ∈ seen ∨ (List.lookup a prior).isSome then
            ["warning: duplicate definition for `" ++ a ++ "`"] else []) ++
          dupWarnings prior (seen ++ [a]) (tl ++ [(n, e)]) := rfl
      have hR : dupWarnings prior seen ((a, b) :: tl) =
          (if a ∈ seen ∨ (List.lookup a prior).isSome then
            ["warning: duplicate definition for `" ++ a ++ "`"] else []) ++
          dupWarnings prior (seen ++ [a]) tl := rfl
      rw [hL, hR, ih (seen ++ [a]), ← List.append_assoc]
      congr 1
      have hcond : (n ∈ (seen ++ [a]) ++ List.map Prod.fst tl ∨
            ((List.lookup n prior).isSome = true)) ↔
          (n ∈ seen ++ List.map Prod.fst ((a, b) :: tl) ∨
            ((List.lookup n prior).isSome = true)) := by
        simp only [List.map_cons, List.mem_append, List.mem_cons, List.mem_singleton]
        tauto
      exact if_congr hcond rfl rfl

theorem lookup_extendMap {α : Type} (base add : List (String × α)) (n : String)
    (h : (add.map Prod.fst).Nodup) :
    List.lookup n (extendMap base add) = (List.lookup n add).or (List.lookup n base) := by
  induction add generalizing base with
  | nil => rfl
  | cons hd tl ih =>
      obtain ⟨k, v⟩ := hd
      simp only [List.map_cons, List.nodup_cons] at h
      obtain ⟨hk, htl⟩ := h
      have hstep : extendMap base ((k, v) :: tl) = extendMap (mapInsert base k v) tl := rfl
      rw [hstep, ih (mapInsert base k v) htl, lookup_cons_eq_if]
      by_cases hn : n = k
      · subst hn
        have hnone : List.lookup n tl = none :=
          lookup_eq_none_of_not_mem_keys tl n hk
        simp [hnone, lookup_mapInsert_self]
      · rw [lookup_mapInsert_other base k n v hn, if_neg hn]

theorem processIncludes_invariant (fs : Filesystem) (prior : List (String × RegEntry)) :
    ∀ (fuel : Nat) (stack : List String) (newInc : List (String × RegEntry))
      (warns : List String) (log : List (String × RegEntry))
      (W : List String) (I L : List (String × RegEntry)),
    processIncludes fs prior fuel stack newInc warns log = Except.ok (W, I, L) →
    (∀ n, List.lookup n newInc = lastEntryOpt log n) →
    warns = dupWarnings prior [] log →
    (newInc.map Prod.fst).Nodup →
    (∀ e ∈ log, goodEvent fs e) →
    (∀ n, List.lookup n I = lastEntryOpt L n) ∧ W = dupWarnings prior [] L ∧
      (I.map Prod.fst).Nodup ∧ (∀ e ∈ L, goodEvent fs e) := by
  intro fuel
  induction fuel with
  | zero =>
      intro stack newInc warns log W I L hrun h1 h2 h3 h4
      cases stack with
      | nil =>
          simp only [processIncludes, Except.ok.injEq, Prod.mk.injEq] at hrun
          obtain ⟨hW, hI, hL⟩ := hrun
          subst hW; subst hI; subst hL
          exact ⟨h1, h2, h3, h4⟩
      | cons p rest => simp [processIncludes] at hrun
  | succ fuel ih =>
      intro stack newInc warns log W I L hrun h1 h2 h3 h4
      cases stack with
      | nil =>
          simp only [processIncludes, Except.ok.injEq, Prod.mk.injEq] at hrun
          obtain ⟨hW, hI, hL⟩ := hrun
          subst hW; subst hI; subst hL
          exact ⟨h1, h2, h3, h4⟩
      | cons p rest =>
          rw [show processIncludes fs prior (fuel + 1) (p :: rest) newInc warns log =
              (match List.lookup p fs with
              | none => Except.error ("Failed to read file " ++ p)
              | some (FsEntry.dir entries) =>
                  processIncludes fs prior fuel (entries.reverse ++ rest) newInc warns log
              | some (FsEntry.file f) =>
                  processIncludes fs prior fuel rest
                    (mapInsert newInc (includeName p f) ⟨f.reqs, p, stripExport f.text⟩)
                    (if (List.lookup (includeName p f) newInc).isSome ∨
                        (List.lookup (includeName p f) prior).isSome then
                      warns ++ ["warning: duplicate definition for `" ++ includeName p f ++ "`"]
                    else warns)
                    (log ++ [(includeName p f, (⟨f.reqs, p, stripExport f.text⟩ : RegEntry))]))
            from rfl] at hrun
          cases hfsl : List.lookup p fs with
          | none => rw [hfsl] at hrun; exact absurd hrun (by simp)
          | some entry =>
              cases entry with
              | dir entries =>
                  rw [hfsl] at hrun
                  exact ih _ _ _ _ W I L hrun h1 h2 h3 h4
              | file f =>
                  rw [hfsl] at hrun
                  refine ih _ _ _ _ W I L hrun ?_ ?_ ?_ ?_
                  · intro n
                    by_cases hn : n = includeName p f
                    · subst hn
                      rw [lookup_mapInsert_self, lastEntryOpt_append, if_pos rfl]
                    · rw [lookup_mapInsert_other _ _ _ _ hn, lastEntryOpt_append,
                        if_neg hn, h1 n]
                  · rw [dupWarnings_append, ← h2]
                    have hiff : ((List.lookup (includeName p f) newInc).isSome = true ∨
                          ((List.lookup (includeName p f) prior).isSome = true)) ↔
                        (includeName p f ∈ ([] : List String) ++ log.map Prod.fst ∨
                          ((List.lookup (includeName p f) prior).isSome = true)) := by
                      rw [h1 (includeName p f)]
                      simp only [List.nil_append]
                      rw [lastEntryOpt_isSome_iff]
                    by_cases hc : (List.lookup (includeName p f) newInc).isSome = true ∨
                        (List.lookup (includeName p f) prior).isSome = true
                    · rw [if_pos hc, if_pos (hiff.mp hc)]
                    · rw [if_neg hc, if_neg (fun hx => hc (hiff.mpr hx)), List.append_nil]
                  · exact keys_nodup_mapInsert _ _ _ h3
                  · intro e he
                    rcases List.mem_append.mp he with hel | hev
                    · exact h4 e hel
                    · rw [List.mem_singleton] at hev
                      subst hev
                      exact ⟨f, hfsl, rfl, rfl, rfl⟩

/-! ### Lemmas about constant insertion -/

theorem insertConstants_cons (m : List (String × ShaderDefValue)) (k : String)
    (tv : TypedValue) (rest : List (String × TypedValue)) :
    insertConstants m ((k, tv) :: rest) =
      (match shaderDefValueFromTyped tv with
      | Except.error e => Except.error e
      | Except.ok v => insertConstants (mapInsert m k v) rest) := rfl

theorem insertConstants_append (m : List (String × ShaderDefValue))
    (a b : List (String × TypedValue)) :
    insertConstants m (a ++ b) =
      (insertConstants m a).bind (fun mid => insertConstants mid b) := by
  induction a generalizing m with
  | nil => rfl
  | cons hd tl ih =>
      obtain ⟨k, tv⟩ := hd
      rw [List.cons_append, insertConstants_cons, insertConstants_cons]
      cases shaderDefValueFromTyped tv with
      | error e => rfl
      | ok v => exact ih (mapInsert m k v)

theorem insertConstants_lookup_untouched (cs : List (String × TypedValue))
    (m m' : List (String × ShaderDefValue)) (n : String)
    (hrun : insertConstants m cs = Except.ok m') (hn : n ∉ cs.map Prod.fst) :
    List.lookup n m' = List.lookup n m := by
  induction cs generalizing m with
  | nil =>
      simp only [insertConstants, Except.ok.injEq] at hrun
      subst hrun; rfl
  | cons hd tl ih =>
      obtain ⟨k, tv⟩ := hd
      simp only [List.map_cons, List.mem_cons] at hn
      push_neg at hn
      obtain ⟨hnk, hntl⟩ := hn
      unfold insertConstants at hrun
      cases hconv : shaderDefValueFromTyped tv with
      | error e => rw [hconv] at hrun; exact absurd hrun (by simp)
      | ok v =>
          rw [hconv] at hrun
          rw [ih (mapInsert m k v) hrun hntl]
          exact lookup_mapInsert_other m k n v hnk

/-! ### Claim theorems: constant typing and shader defs -/

/-- Claim C6 counterexample: the constant FOO declared Int(3000000000)
aborts with the message of the source panic, and that message does not
contain the constant name FOO: the diagnostic does not name the offending
constant. -/
theorem constant_error_omits_name_counterexample :
    buildShaderDefs false [("FOO", ⟨"Int", SynLit.int 3000000000⟩)] =
      Except.error "Expected i32 literal for Int() constant" ∧
    hasSubstr "FOO".data "Expected i32 literal for Int() constant".data = false := by
  constructor
  · rfl
  · decide

/-- Claim C6 (amended): Int literals are accepted exactly when they fit
the signed 32-bit range and UInt literals exactly when they fit the
unsigned 32-bit range; otherwise the conversion aborts with a message
naming the expected literal type but not the offending constant; in
particular Int(3000000000) fails while UInt(3000000000) succeeds. -/
theorem constant_typing_range_characterization (n : Int) :
    (shaderDefValueFromTyped ⟨"Int", SynLit.int n⟩ = Except.ok (ShaderDefValue.Int n) ↔
      -(2 ^ 31) ≤ n ∧ n < 2 ^ 31) ∧
    (¬(-(2 ^ 31) ≤ n ∧ n < 2 ^ 31) →
      shaderDefValueFromTyped ⟨"Int", SynLit.int n⟩ =
        Except.error "Expected i32 literal for Int() constant") ∧
    (shaderDefValueFromTyped ⟨"UInt", SynLit.int n⟩ = Except.ok (ShaderDefValue.UInt n) ↔
      0 ≤ n ∧ n < 2 ^ 32) ∧
    (¬(0 ≤ n ∧ n < 2 ^ 32) →
      shaderDefValueFromTyped ⟨"UInt", SynLit.int n⟩ =
        Except.error "Expected u32 literal for UInt() constant") ∧
    shaderDefValueFromTyped ⟨"Int", SynLit.int 3000000000⟩ =
      Except.error "Expected i32 literal for Int() constant" ∧
    shaderDefValueFromTyped ⟨"UInt", SynLit.int 3000000000⟩ =
      Except.ok (ShaderDefValue.UInt 3000000000) := by
  have hredI : ∀ m : Int, shaderDefValueFromTyped ⟨"Int", SynLit.int m⟩ =
      (match base10ParseI32 m with
      | some k => Except.ok (ShaderDefValue.Int k)
      | none => Except.error "Expected i32 literal for Int() constant") := fun _ => rfl
  have hredU : ∀ m : Int, shaderDefValueFromTyped ⟨"UInt", SynLit.int m⟩ =
      (match base10ParseU32 m with
      | some k => Except.ok (ShaderDefValue.UInt k)
      | none => Except.error "Expected u32 literal for UInt() constant") := fun _ => rfl
  refine ⟨?_, ?_, ?_, ?_, ?_, ?_⟩
  · rw [hredI]
    unfold base10ParseI32
    by_cases hc : -(2 ^ 31) ≤ n ∧ n < 2 ^ 31
    · rw [if_pos hc]
      exact iff_of_true rfl hc
    · rw [if_neg hc]
      exact iff_of_false (fun h => Except.noConfusion h) hc
  · intro hc
    rw [hredI]
    unfold base10ParseI32
    rw [if_neg hc]
  · rw [hredU]
    unfold base10ParseU32
    by_cases hc : 0 ≤ n ∧ n < 2 ^ 32
    · rw [if_pos hc]
      exact iff_of_true rfl hc
    · rw [if_neg hc]
      exact iff_of_false (fun h => Except.noConfusion h) hc
  · intro hc
    rw [hredU]
    unfold base10ParseU32
    rw [if_neg hc]
  · rw [hredI]
    unfold base10ParseI32
    rw [if_neg (by norm_num)]
  · rw [hredU]
    unfold base10ParseU32
    rw [if_pos (by norm_num)]

/-- Witness for the amended claim C6 at the concrete literal of the spec. -/
theorem constant_typing_range_characterization_witness :
    shaderDefValueFromTyped ⟨"Int", SynLit.int 3000000000⟩ =
      Except.error "Expected i32 literal for Int() constant" ∧
    shaderDefValueFromTyped ⟨"UInt", SynLit.int 3000000000⟩ =
      Except.ok (ShaderDefValue.UInt 3000000000) :=
  ⟨(constant_typing_range_characterization 3000000000).2.1 (by norm_num),
   (constant_typing_range_characterization 3000000000).2.2.2.2.2⟩

/-- Claim C9: in a debug build the implicit entry __DEBUG = Bool(true) is
inserted before the caller-supplied constants, so the last caller-supplied
constant named __DEBUG overrides the implicit flag. -/
theorem debug_flag_overridden_by_caller_constant
    (pre post : List (String × TypedValue)) (tv : TypedValue) (v : ShaderDefValue)
    (m : List (String × ShaderDefValue))
    (hconv : shaderDefValueFromTyped tv = Except.ok v)
    (hnp : "__DEBUG" ∉ post.map Prod.fst)
    (hrun : buildShaderDefs true (pre ++ [("__DEBUG", tv)] ++ post) = Except.ok m) :
    List.lookup "__DEBUG" m = some v := by
  unfold buildShaderDefs at hrun
  rw [if_pos rfl] at hrun
  rw [insertConstants_append, insertConstants_append] at hrun
  cases hpre : insertConstants (mapInsert [] "__DEBUG" (ShaderDefValue.Bool true)) pre with
  | error e => rw [hpre] at hrun; exact absurd hrun (by simp [Except.bind])
  | ok mid1 =>
      rw [hpre] at hrun
      simp only [Except.bind] at hrun
      have hstep : insertConstants mid1 [("__DEBUG", tv)] =
          Except.ok (mapInsert mid1 "__DEBUG" v) := by
        unfold insertConstants
        rw [hconv]
        rfl
      rw [hstep] at hrun
      simp only [Except.bind] at hrun
      rw [insertConstants_lookup_untouched post _ m "__DEBUG" hrun hnp]
      exact lookup_mapInsert_self mid1 "__DEBUG" v

/-- Witness for claim C9: a caller-supplied __DEBUG = Bool(false) wins
over the implicit debug flag. -/
theorem debug_flag_overridden_by_caller_constant_witness :
    List.lookup "__DEBUG" [("__DEBUG", ShaderDefValue.Bool false)] =
      some (ShaderDefValue.Bool false) :=
  debug_flag_overridden_by_caller_constant [] [] ⟨"Bool", SynLit.bool false⟩
    (ShaderDefValue.Bool false) [("__DEBUG", ShaderDefValue.Bool false)]
    rfl (by simp) rfl

/-! ### Claim theorems: include registration -/

/-- Claim C8: across one registration pass, a registration under a name
already present (earlier in the pass, or in the prior registry) emits a
duplicate-definition warning, and the registry used afterwards resolves
every name to the most recently processed registration, falling back to
the prior registry (last write wins). -/
theorem duplicate_include_warns_last_write_wins
    (fs : Filesystem) (prior : List (String × RegEntry)) (fuel : Nat)
    (stack : List String) (W : List String) (I L : List (String × RegEntry))
    (hrun : processIncludes fs prior fuel stack [] [] [] = Except.ok (W, I, L)) :
    (∀ n, List.lookup n (extendMap prior I) =
      (lastEntryOpt L n).or (List.lookup n prior)) ∧
    W = dupWarnings prior [] L := by
  obtain ⟨hI, hW, hnd, _⟩ :=
    processIncludes_invariant fs prior fuel stack [] [] [] W I L hrun
      (fun _ => rfl) rfl List.nodup_nil (fun e he => absurd he (List.not_mem_nil e))
  refine ⟨?_, hW⟩
  intro n
  rw [lookup_extendMap prior I n hnd, hI n]

/-- Witness for claim C8: processing b.wgsl then a.wgsl (the pop order of
the source worklist), the duplicate warning is emitted and the later
registration (from a.wgsl) is the one the registry resolves. -/
theorem duplicate_include_warns_last_write_wins_witness :
    List.lookup "util" (extendMap ([] : List (String × RegEntry))
        [("util", (⟨[], "a.wgsl", "x"⟩ : RegEntry))]) =
      (lastEntryOpt [("util", ⟨[], "b.wgsl", "y"⟩), ("util", ⟨[], "a.wgsl", "x"⟩)]
          "util").or (List.lookup "util" ([] : List (String × RegEntry))) ∧
    ["warning: duplicate definition for `util`"] =
      dupWarnings [] []
        [("util", ⟨[], "b.wgsl", "y"⟩), ("util", ⟨[], "a.wgsl", "x"⟩)] :=
  have h := duplicate_include_warns_last_write_wins fsW [] 2 ["b.wgsl", "a.wgsl"]
    ["warning: duplicate definition for `util`"]
    [("util", ⟨[], "a.wgsl", "x"⟩)]
    [("util", ⟨[], "b.wgsl", "y"⟩), ("util", ⟨[], "a.wgsl", "x"⟩)] rfl
  ⟨h.1 "util", h.2⟩

/-- Claim C10: every entry registered by the include pass stores, for the
file it came from, exactly the raw file text with every occurrence of the
at-export marker removed (the removal is purely textual, wherever the
marker occurs). -/
theorem include_text_strips_all_export_markers
    (fs : Filesystem) (prior : List (String × RegEntry)) (fuel : Nat)
    (stack : List String) (W : List String) (I L : List (String × RegEntry))
    (hrun : processIncludes fs prior fuel stack [] [] [] = Except.ok (W, I, L)) :
    ∀ e ∈ L, ∃ f, List.lookup e.2.path fs = some (FsEntry.file f) ∧
      e.2.text = stripExport f.text := by
  obtain ⟨_, _, _, hgood⟩ :=
    processIncludes_invariant fs prior fuel stack [] [] [] W I L hrun
      (fun _ => rfl) rfl List.nodup_nil (fun e he => absurd he (List.not_mem_nil e))
  intro e he
  obtain ⟨f, hf1, hf2, _, _⟩ := hgood e he
  exact ⟨f, hf1, hf2⟩

/-- Claim C5: the saturation worklist loop does not always terminate.
With the registry of includesC5 and root requirement set consisting of a,
the frontier reaches the fixed point consisting of missing and a and
never empties: no amount of fuel makes the while loop of src/source.rs
lines 130-162 exit, since it exits only when the frontier is empty. -/
theorem saturation_loop_diverges_on_missing_subrequirement :
    ∀ fuel round, satLoop includesC5 (fun _ l => l) fuel round ["a"] [] = none := by
  have hfix : ∀ fuel round,
      satLoop includesC5 (fun _ l => l) fuel round ["missing", "a"] [] = none := by
    intro fuel
    induction fuel with
    | zero => intro _; rfl
    | succ fuel ih => intro round; exact ih (round + 1)
  intro fuel round
  cases fuel with
  | zero => rfl
  | succ fuel => exact hfix fuel (round + 1)

/-- Claim C4 counterexample: on identical inputs (registry and root
requirement set), two hash-set iteration orders (which the source does
not control: HashSet with a random per-process hash state) submit the
registry modules in different orders, so the module submission order is
not a function of the inputs alone, and it does not follow first-seen
directive order. -/
theorem submission_order_depends_on_iteration_order :
    satLoop includesC4 (fun _ l => l) 3 0 ["x", "y"] [] = some ["x", "y"] ∧
    satLoop includesC4 (fun _ l => l.reverse) 3 0 ["x", "y"] [] = some ["y", "x"] ∧
    (["x", "y"] : List String) ≠ ["y", "x"] :=
  ⟨rfl, rfl, by decide⟩

/-- Witness for claim C10: the registered text for the file of fsX is its
raw text with the comment-internal marker removed as well. -/
theorem include_text_strips_all_export_markers_witness :
    stripExport "// note @export here" = "// note  here" ∧
    (∃ f, List.lookup "c.wgsl" fsX = some (FsEntry.file f) ∧
      ("// note  here" : String) = stripExport f.text) :=
  ⟨rfl,
    include_text_strips_all_export_markers fsX [] 1 ["c.wgsl"] []
      [("c", ⟨[], "c.wgsl", "// note  here"⟩)]
      [("c", ⟨[], "c.wgsl", "// note  here"⟩)] rfl
      ("c", ⟨[], "c.wgsl", "// note  here"⟩) (by simp)⟩

/-! Saturation lemmas -/

theorem mem_insertNew (l : List String) (x y : String) :
    x ∈ insertNew l y ↔ x ∈ l ∨ x = y := by
  unfold insertNew
  by_cases h : y ∈ l
  · rw [if_pos h]
    constructor
    · exact Or.inl
    · rintro (hx | hx)
      · exact hx
      · exact hx ▸ h
  · rw [if_neg h]
    simp [List.mem_append]

theorem mem_insertAllNew (l ys : List String) (x : String) :
    x ∈ insertAllNew l ys ↔ x ∈ l ∨ x ∈ ys := by
  induction ys generalizing l with
  | nil => simp [insertAllNew]
  | cons a tl ih =>
      show x ∈ insertAllNew (insertNew l a) tl ↔ _
      rw [ih, mem_insertNew]
      simp [List.mem_cons]
      tauto

theorem satR_elim {includes : List (String × RegEntry)} {n : String}
    (h : SatR includes n) :
    ∃ e, List.lookup n includes = some e ∧ ∀ s ∈ e.reqs, SatR includes s := by
  cases h with
  | mk r e hlk hall => exact ⟨e, hlk, hall⟩

theorem reachR_nil_elim {includes : List (String × RegEntry)} {n : String}
    (h : ReachR includes [] n) : False := by
  induction h with
  | root r hr => exact absurd hr (List.not_mem_nil r)
  | step r e s hr hlk hs ih => exact ih

theorem mem_newComposed (composed : List String) (r : String) (e : RegEntry)
    (x : String) : x ∈ newComposed composed r e ↔ x ∈ composed ∨
      (x = r ∧ ∀ s ∈ e.reqs, s ∈ composed) := by
  unfold newComposed
  by_cases hall : ∀ s ∈ e.reqs, s ∈ composed
  · rw [if_pos hall]
    simp only [List.mem_append, List.mem_singleton]
    constructor
    · rintro (hx | hx)
      · exact Or.inl hx
      · exact Or.inr ⟨hx, hall⟩
    · rintro (hx | ⟨hx, _⟩)
      · exact Or.inl hx
      · exact Or.inr hx
  · rw [if_neg hall]
    constructor
    · exact Or.inl
    · rintro (hx | ⟨_, hx⟩)
      · exact hx
      · exact absurd hx hall

theorem spo_eq_none {includes : List (String × RegEntry)} {acc : SatAcc} {r : String}
    (hlk : List.lookup r includes = none) : satProcessOne includes acc r = acc := by
  unfold satProcessOne
  rw [hlk]

theorem spo_eq_skip {includes : List (String × RegEntry)} {acc : SatAcc} {r : String}
    {e : RegEntry} (hlk : List.lookup r includes = some e) (hr : r ∈ acc.composed) :
    satProcessOne includes acc r = acc := by
  unfold satProcessOne
  rw [hlk]
  exact if_pos hr

theorem spo_eq_work {includes : List (String × RegEntry)} {acc : SatAcc} {r : String}
    {e : RegEntry} (hlk : List.lookup r includes = some e) (hr : r ∉ acc.composed) :
    satProcessOne includes acc r =
      ⟨newComposed acc.composed r e,
        insertNew (insertAllNew acc.next
          (e.reqs.filter (fun s => s ∉ newComposed acc.composed r e))) r⟩ := by
  unfold satProcessOne
  rw [hlk]
  exact if_neg hr

theorem spo_composed_mono (includes : List (String × RegEntry)) (acc : SatAcc)
    (r x : String) (hx : x ∈ acc.composed) :
    x ∈ (satProcessOne includes acc r).composed := by
  cases hlk : List.lookup r includes with
  | none => rw [spo_eq_none hlk]; exact hx
  | some e =>
      by_cases hr : r ∈ acc.composed
      · rw [spo_eq_skip hlk hr]; exact hx
      · rw [spo_eq_work hlk hr]
        exact (mem_newComposed acc.composed r e x).mpr (Or.inl hx)

theorem spo_next_mono (includes : List (String × RegEntry)) (acc : SatAcc)
    (r x : String) (hx : x ∈ acc.next) :
    x ∈ (satProcessOne includes acc r).next := by
  cases hlk : List.lookup r includes with
  | none => rw [spo_eq_none hlk]; exact hx
  | some e =>
      by_cases hr : r ∈ acc.composed
      · rw [spo_eq_skip hlk hr]; exact hx
      · rw [spo_eq_work hlk hr]
        exact (mem_insertNew _ x r).mpr
          (Or.inl ((mem_insertAllNew _ _ x).mpr (Or.inl hx)))

theorem spo_closed (includes : List (String × RegEntry)) (acc : SatAcc) (r : String)
    (h : ClosedC includes acc.composed) :
    ClosedC includes (satProcessOne includes acc r).composed := by
  cases hlk : List.lookup r includes with
  | none => rw [spo_eq_none hlk]; exact h
  | some e =>
      by_cases hr : r ∈ acc.composed
      · rw [spo_eq_skip hlk hr]; exact h
      · rw [spo_eq_work hlk hr]
        intro c hc e' hlk' s hs
        rcases (mem_newComposed acc.composed r e c).mp hc with hcm | ⟨hcr, hall⟩
        · exact (mem_newComposed acc.composed r e s).mpr
            (Or.inl (h c hcm e' hlk' s hs))
        · subst hcr
          rw [hlk] at hlk'
          cases hlk'
          exact (mem_newComposed acc.composed c e s).mpr (Or.inl (hall s hs))

theorem spo_sound_sat (includes : List (String × RegEntry)) (acc : SatAcc) (r : String)
    (h : ∀ x ∈ acc.composed, SatR includes x) :
    ∀ x ∈ (satProcessOne includes acc r).composed, SatR includes x := by
  cases hlk : List.lookup r includes with
  | none => rw [spo_eq_none hlk]; exact h
  | some e =>
      by_cases hr : r ∈ acc.composed
      · rw [spo_eq_skip hlk hr]; exact h
      · rw [spo_eq_work hlk hr]
        intro x hx
        rcases (mem_newComposed acc.composed r e x).mp hx with hxm | ⟨hxr, hall⟩
        · exact h x hxm
        · subst hxr
          exact SatR.mk x e hlk (fun s hs => h s (hall s hs))

theorem spo_reach (includes : List (String × RegEntry)) (roots : List String)
    (acc : SatAcc) (r : String)
    (hC : ∀ x ∈ acc.composed, ReachR includes roots x)
    (hN : ∀ x ∈ acc.next, ReachR includes roots x)
    (hr : ReachR includes roots r) :
    (∀ x ∈ (satProcessOne includes acc r).composed, ReachR includes roots x) ∧
    (∀ x ∈ (satProcessOne includes acc r).next, ReachR includes roots x) := by
  cases hlk : List.lookup r includes with
  | none => rw [spo_eq_none hlk]; exact ⟨hC, hN⟩
  | some e =>
      by_cases hrc : r ∈ acc.composed
      · rw [spo_eq_skip hlk hrc]; exact ⟨hC, hN⟩
      · rw [spo_eq_work hlk hrc]
        constructor
        · intro x hx
          rcases (mem_newComposed acc.composed r e x).mp hx with hxm | ⟨hxr, _⟩
          · exact hC x hxm
          · exact hxr ▸ hr
        · intro x hx
          rcases (mem_insertNew _ x r).mp hx with hx1 | hx1
          · rcases (mem_insertAllNew _ _ x).mp hx1 with hx2 | hx2
            · exact hN x hx2
            · have hxe : x ∈ e.reqs := List.mem_of_mem_filter hx2
              exact ReachR.step r e x hr hlk hxe
          · exact hx1 ▸ hr

theorem foldl_composed_mono (includes : List (String × RegEntry)) (ord : List String) :
    ∀ (acc : SatAcc) (x : String), x ∈ acc.composed →
      x ∈ (ord.foldl (satProcessOne includes) acc).composed := by
  induction ord with
  | nil => intro acc x hx; exact hx
  | cons a tl ih =>
      intro acc x hx
      exact ih (satProcessOne includes acc a) x (spo_composed_mono includes acc a x hx)

theorem foldl_next_mono (includes : List (String × RegEntry)) (ord : List String) :
    ∀ (acc : SatAcc) (x : String), x ∈ acc.next →
      x ∈ (ord.foldl (satProcessOne includes) acc).next := by
  induction ord with
  | nil => intro acc x hx; exact hx
  | cons a tl ih =>
      intro acc x hx
      exact ih (satProcessOne includes acc a) x (spo_next_mono includes acc a x hx)

theorem foldl_closed (includes : List (String × RegEntry)) (ord : List String) :
    ∀ (acc : SatAcc), ClosedC includes acc.composed →
      ClosedC includes ((ord.foldl (satProcessOne includes) acc).composed) := by
  induction ord with
  | nil => intro acc h; exact h
  | cons a tl ih =>
      intro acc h
      exact ih (satProcessOne includes acc a) (spo_closed includes acc a h)

theorem foldl_sound_sat (includes : List (String × RegEntry)) (ord : List String) :
    ∀ (acc : SatAcc), (∀ x ∈ acc.composed, SatR includes x) →
      ∀ x ∈ (ord.foldl (satProcessOne includes) acc).composed, SatR includes x := by
  induction ord with
  | nil => intro acc h; exact h
  | cons a tl ih =>
      intro acc h
      exact ih (satProcessOne includes acc a) (spo_sound_sat includes acc a h)

theorem foldl_reach (includes : List (String × RegEntry)) (roots : List String)
    (ord : List String) :
    ∀ (acc : SatAcc), (∀ x ∈ acc.composed, ReachR includes roots x) →
      (∀ x ∈ acc.next, ReachR includes roots x) →
      (∀ r ∈ ord, ReachR includes roots r) →
      (∀ x ∈ (ord.foldl (satProcessOne includes) acc).composed,
        ReachR includes roots x) ∧
      (∀ x ∈ (ord.foldl (satProcessOne includes) acc).next,
        ReachR includes roots x) := by
  induction ord with
  | nil => intro acc hC hN _; exact ⟨hC, hN⟩
  | cons a tl ih =>
      intro acc hC hN hord
      have ha := spo_reach includes roots acc a hC hN (hord a (List.mem_cons_self a tl))
      exact ih (satProcessOne includes acc a) ha.1 ha.2
        (fun r hr => hord r (List.mem_cons_of_mem a hr))

theorem foldl_hits (includes : List (String × RegEntry)) (ord : List String) :
    ∀ (acc : SatAcc) (r : String), r ∈ ord →
      (List.lookup r includes).isSome →
      r ∈ (ord.foldl (satProcessOne includes) acc).composed ∨
      r ∈ (ord.foldl (satProcessOne includes) acc).next := by
  induction ord with
  | nil => intro acc r hr _; exact absurd hr (List.not_mem_nil r)
  | cons a tl ih =>
      intro acc r hr hlks
      rcases List.mem_cons.mp hr with hra | hrtl
      · subst hra
        cases hlk : List.lookup r includes with
        | none => rw [hlk] at hlks; simp at hlks
        | some e =>
            by_cases hrc : r ∈ acc.composed
            · left
              refine foldl_composed_mono includes tl (satProcessOne includes acc r) r ?_
              exact spo_composed_mono includes acc r r hrc
            · right
              refine foldl_next_mono includes tl (satProcessOne includes acc r) r ?_
              rw [spo_eq_work hlk hrc]
              exact (mem_insertNew _ r r).mpr (Or.inr rfl)
      · exact ih (satProcessOne includes acc a) r hrtl hlks

theorem round_reach (includes : List (String × RegEntry)) (ord F composed : List String)
    (hFord : ∀ x, x ∈ F → x ∈ ord)
    (hclosed : ClosedC includes composed) :
    ∀ n, ReachR includes F n →
      n ∈ (satRound includes ord composed).composed ∨
      ReachR includes (satRound includes ord composed).next n ∨
      List.lookup n includes = none := by
  intro n hn
  induction hn with
  | root r hr =>
      cases hlk : List.lookup r includes with
      | none => exact Or.inr (Or.inr rfl)
      | some e =>
          rcases foldl_hits includes ord ⟨composed, []⟩ r (hFord r hr)
              (by rw [hlk]; rfl) with h | h
          · exact Or.inl h
          · exact Or.inr (Or.inl (ReachR.root r h))
  | step r e s hr hlk hs ih =>
      rcases ih with h | h | h
      · have hcl : ClosedC includes (satRound includes ord composed).composed :=
          foldl_closed includes ord ⟨composed, []⟩ hclosed
        exact Or.inl (hcl r h e hlk s hs)
      · exact Or.inr (Or.inl (ReachR.step r e s h hlk hs))
      · rw [hlk] at h
        exact absurd h (by simp)

theorem satLoop_zero (includes : List (String × RegEntry))
    (oracle : Nat → List String → List String) (round : Nat)
    (reqs composed : List String) :
    satLoop includes oracle 0 round reqs composed =
      if reqs = [] then some composed else none := rfl

theorem satLoop_succ (includes : List (String × RegEntry))
    (oracle : Nat → List String → List String) (fuel round : Nat)
    (reqs composed : List String) :
    satLoop includes oracle (fuel + 1) round reqs composed =
      if reqs = [] then some composed
      else satLoop includes oracle fuel (round + 1)
        (satRound includes (oracle round reqs) composed).next
        (satRound includes (oracle round reqs) composed).composed := rfl

theorem satLoop_complete (includes : List (String × RegEntry))
    (oracle : Nat → List String → List String)
    (horacle : ∀ k l x, x ∈ oracle k l ↔ x ∈ l) :
    ∀ (fuel round : Nat) (F C Cfin : List String),
    satLoop includes oracle fuel round F C = some Cfin →
    ClosedC includes C →
    ∀ n, SatR includes n → (n ∈ C ∨ ReachR includes F n) → n ∈ Cfin := by
  intro fuel
  induction fuel with
  | zero =>
      intro round F C Cfin hrun hcl n hsat hn
      rw [satLoop_zero] at hrun
      by_cases hF : F = []
      · rw [if_pos hF] at hrun
        have hCfin : C = Cfin := by injection hrun
        subst hCfin
        rcases hn with hn | hn
        · exact hn
        · subst hF
          exact absurd hn (fun hx => reachR_nil_elim hx)
      · rw [if_neg hF] at hrun
        exact Option.noConfusion hrun
  | succ fuel ih =>
      intro round F C Cfin hrun hcl n hsat hn
      rw [satLoop_succ] at hrun
      by_cases hF : F = []
      · rw [if_pos hF] at hrun
        have hCfin : C = Cfin := by injection hrun
        subst hCfin
        rcases hn with hn | hn
        · exact hn
        · subst hF
          exact absurd hn (fun hx => reachR_nil_elim hx)
      · rw [if_neg hF] at hrun
        refine ih (round + 1) _ _ Cfin hrun
          (foldl_closed includes (oracle round F) ⟨C, []⟩ hcl) n hsat ?_
        rcases hn with hn | hn
        · exact Or.inl (foldl_composed_mono includes (oracle round F) ⟨C, []⟩ n hn)
        · have hFord : ∀ x, x ∈ F → x ∈ oracle round F :=
            fun x hx => (horacle round F x).mpr hx
          rcases round_reach includes (oracle round F) F C hFord hcl n hn
            with h | h | h
          · exact Or.inl h
          · exact Or.inr h
          · obtain ⟨e, hlk, _⟩ := satR_elim hsat
            rw [hlk] at h
            exact Option.noConfusion h

theorem satLoop_sound (includes : List (String × RegEntry))
    (oracle : Nat → List String → List String) (roots : List String)
    (horacle : ∀ k l x, x ∈ oracle k l ↔ x ∈ l) :
    ∀ (fuel round : Nat) (F C Cfin : List String),
    satLoop includes oracle fuel round F C = some Cfin →
    (∀ x ∈ C, SatR includes x) →
    (∀ x ∈ C, ReachR includes roots x) →
    (∀ x ∈ F, ReachR includes roots x) →
    ∀ x ∈ Cfin, SatR includes x ∧ ReachR includes roots x := by
  intro fuel
  induction fuel with
  | zero =>
      intro round F C Cfin hrun hCsat hCreach hFreach
      rw [satLoop_zero] at hrun
      by_cases hF : F = []
      · rw [if_pos hF] at hrun
        have hCfin : C = Cfin := by injection hrun
        subst hCfin
        exact fun x hx => ⟨hCsat x hx, hCreach x hx⟩
      · rw [if_neg hF] at hrun
        exact Option.noConfusion hrun
  | succ fuel ih =>
      intro round F C Cfin hrun hCsat hCreach hFreach
      rw [satLoop_succ] at hrun
      by_cases hF : F = []
      · rw [if_pos hF] at hrun
        have hCfin : C = Cfin := by injection hrun
        subst hCfin
        exact fun x hx => ⟨hCsat x hx, hCreach x hx⟩
      · rw [if_neg hF] at hrun
        have hord : ∀ r ∈ oracle round F, ReachR includes roots r :=
          fun r hr => hFreach r ((horacle round F r).mp hr)
        have hreach := foldl_reach includes roots (oracle round F) ⟨C, []⟩
          hCreach (fun x hx => absurd hx (List.not_mem_nil x)) hord
        exact ih (round + 1) _ _ Cfin hrun
          (foldl_sound_sat includes (oracle round F) ⟨C, []⟩ hCsat)
          hreach.1 hreach.2

theorem satLoop_characterization (includes : List (String × RegEntry))
    (oracle : Nat → List String → List String) (roots c : List String) (fuel : Nat)
    (horacle : ∀ k l x, x ∈ oracle k l ↔ x ∈ l)
    (hrun : satLoop includes oracle fuel 0 roots [] = some c) :
    ∀ n, n ∈ c ↔ SatR includes n ∧ ReachR includes roots n := by
  intro n
  constructor
  · intro hn
    exact satLoop_sound includes oracle roots horacle fuel 0 roots [] c hrun
      (fun x hx => absurd hx (List.not_mem_nil x))
      (fun x hx => absurd hx (List.not_mem_nil x))
      (fun x hx => ReachR.root x hx) n hn
  · rintro ⟨hsat, hreach⟩
    exact satLoop_complete includes oracle horacle fuel 0 roots [] c hrun
      (fun x hx => absurd hx (List.not_mem_nil x)) n hsat (Or.inr hreach)

/-- Claim C4 (amended): a resolution outcome is a pure function of the
inputs together with the hash-container iteration order; the iteration
order is not itself an input, and two runs on identical inputs may submit
the saturated registry modules in different orders (the counterexample).
What is determined by the inputs alone is the set of modules the
saturation loop submits: any two terminating runs on identical inputs
compose exactly the same set of modules, namely the saturable
requirements reachable from the root requirement set. -/
theorem saturation_composed_set_deterministic
    (includes : List (String × RegEntry))
    (o1 o2 : Nat → List String → List String) (f1 f2 : Nat)
    (roots c1 c2 : List String)
    (h1 : ∀ k l x, x ∈ o1 k l ↔ x ∈ l) (h2 : ∀ k l x, x ∈ o2 k l ↔ x ∈ l)
    (r1 : satLoop includes o1 f1 0 roots [] = some c1)
    (r2 : satLoop includes o2 f2 0 roots [] = some c2) :
    ∀ n, n ∈ c1 ↔ n ∈ c2 := by
  intro n
  rw [satLoop_characterization includes o1 roots c1 f1 h1 r1 n,
    satLoop_characterization includes o2 roots c2 f2 h2 r2 n]

/-- Witness for the amended claim C4 at the concrete registry of the
counterexample: the two differently-ordered runs compose the same set. -/
theorem saturation_composed_set_deterministic_witness :
    (("x" : String) ∈ (["x", "y"] : List String) ↔
      "x" ∈ (["y", "x"] : List String)) :=
  saturation_composed_set_deterministic includesC4 (fun _ l => l)
    (fun _ l => l.reverse) 3 3 ["x", "y"] ["x", "y"] ["y", "x"]
    (fun _ _ _ => Iff.rfl) (fun _ _ _ => List.mem_reverse) rfl rfl "x"

/-! Driver-loop lemmas -/

theorem runImports_cons (m : OrderModule) (rest : List OrderModule)
    (st : DriverState) :
    runImports (m :: rest) st =
      (match m.desc with
      | Except.error (e, es) =>
          ((⟨st.errors ++ (e :: es), st.dependents ++ [m.path], st.submitted⟩ :
            DriverState), true)
      | Except.ok _ =>
          runImports rest
            ⟨st.errors ++ (match m.submit with
              | some e => [e]
              | none => []),
             st.dependents ++ [m.path],
             st.submitted ++ [m.path]⟩) := rfl

theorem runImports_all_ok (imports : List OrderModule) :
    ∀ st0 : DriverState, (∀ m ∈ imports, m.desc = Except.ok ()) →
    runImports imports st0 =
      (⟨st0.errors ++ imports.filterMap (fun m => m.submit),
        st0.dependents ++ imports.map (fun m => m.path),
        st0.submitted ++ imports.map (fun m => m.path)⟩, false) := by
  induction imports with
  | nil =>
      intro st0 _
      obtain ⟨e, d, s⟩ := st0
      simp [runImports]
  | cons m rest ih =>
      intro st0 hdesc
      have hm : m.desc = Except.ok () := hdesc m (List.mem_cons_self m rest)
      have hrest : ∀ x ∈ rest, x.desc = Except.ok () :=
        fun x hx => hdesc x (List.mem_cons_of_mem m hx)
      simp only [runImports_cons, hm]
      rw [ih _ hrest]
      cases hs : m.submit with
      | none => simp [List.filterMap_cons, hs, List.append_assoc]
      | some e => simp [List.filterMap_cons, hs, List.append_assoc]

theorem runImports_early_return_errors (imports : List OrderModule) :
    ∀ st : DriverState, (runImports imports st).2 = true →
      (runImports imports st).1.errors ≠ [] := by
  induction imports with
  | nil =>
      intro st h
      simp [runImports] at h
  | cons m rest ih =>
      intro st h
      cases hd : m.desc with
      | error pr =>
          obtain ⟨e, es⟩ := pr
          simp only [runImports_cons, hd] at h ⊢
          simp
      | ok u =>
          cases u
          simp only [runImports_cons, hd] at h ⊢
          exact ih _ h

theorem composeAfterOrder_errors_iff (imports : List OrderModule)
    (root : RootModule) (st0 : DriverState) :
    ((composeAfterOrder imports root st0).1.errors ≠ [] ↔
      (composeAfterOrder imports root st0).2.1 = none) := by
  unfold composeAfterOrder
  cases hrun : runImports imports st0 with
  | mk st' ab =>
      cases ab with
      | true =>
          have herr : st'.errors ≠ [] := by
            have h1 := runImports_early_return_errors imports st0
              (by rw [hrun])
            rw [hrun] at h1
            simpa using h1
          simpa using herr
      | false =>
          by_cases herr : st'.errors = []
          · simp only []
            rw [if_pos herr]
            cases root.desc with
            | error pr =>
                obtain ⟨e, es⟩ := pr
                simp [herr]
            | ok u =>
                cases root.link with
                | ok m => simp [herr]
                | error e => simp [herr]
          · simp only []
            rw [if_neg herr]
            simp [herr]

/-- Claim C2: during the composition stage, when every import-order
module yields a descriptor, every failed submission of a non-root module
is recorded as a diagnostic and submission still reaches every module
(the submitted paths are exactly all module paths in order, with no early
return), the final diagnostics are exactly the prior diagnostics followed
by every submission failure in order, and the root is linked only if the
prior stages and the submissions produced zero diagnostics. -/
theorem composition_accumulates_submission_errors
    (imports : List OrderModule) (root : RootModule) (st0 : DriverState)
    (hdesc : ∀ m ∈ imports, m.desc = Except.ok ()) :
    (runImports imports st0).1.errors =
      st0.errors ++ imports.filterMap (fun m => m.submit) ∧
    (runImports imports st0).1.submitted =
      st0.submitted ++ imports.map (fun m => m.path) ∧
    (runImports imports st0).2 = false ∧
    ((composeAfterOrder imports root st0).2.2 = true →
      st0.errors = [] ∧ imports.filterMap (fun m => m.submit) = []) := by
  have hall := runImports_all_ok imports st0 hdesc
  refine ⟨by rw [hall], by rw [hall], by rw [hall], ?_⟩
  intro hlink
  unfold composeAfterOrder at hlink
  rw [hall] at hlink
  by_cases herr : st0.errors ++ imports.filterMap (fun m => m.submit) = []
  · exact List.append_eq_nil.mp herr
  · simp only [] at hlink
    rw [if_neg herr] at hlink
    exact absurd hlink (by simp)

/-- Witness for claim C2 at a concrete import list: the failed first
submission is recorded and the second module is still submitted. -/
theorem composition_accumulates_submission_errors_witness :
    (runImports impsW ⟨[], [], []⟩).1.errors = ["compose error in m1"] ∧
    (runImports impsW ⟨[], [], []⟩).1.submitted = ["m1.wgsl", "m2.wgsl"] := by
  have h := composition_accumulates_submission_errors impsW rootW ⟨[], [], []⟩
    (by intro m hm
        simp only [impsW, List.mem_cons] at hm
        rcases hm with rfl | rfl | hm
        · rfl
        · rfl
        · exact absurd hm (List.not_mem_nil m))
  exact ⟨h.1.trans rfl, h.2.1.trans rfl⟩

/-- Claim C1: every resolution outcome produced with the root text
readable satisfies: the diagnostics are non-empty exactly when the
composed module is absent (never both present, never neither). -/
theorem outcome_exclusive_diagnostics_or_module (inp : ComposeInput)
    (hroot : inp.rootText.isSome) (out : ComposeOutcome)
    (hrun : composeModel inp = some out) :
    (out.errors ≠ [] ↔ out.module = none) := by
  unfold composeModel at hrun
  cases hb : buildShaderDefs inp.debugAssertions inp.constants with
  | error e =>
      simp only [hb] at hrun
      exact Option.noConfusion hrun
  | ok defs =>
      simp only [hb] at hrun
      cases ht : inp.rootText with
      | none => rw [ht] at hroot; exact absurd hroot (by simp)
      | some txt =>
          simp only [ht] at hrun
          cases hs : satLoop inp.includes inp.satOracle inp.satFuel 0
              (dedupList inp.rootReqs) [] with
          | none =>
              simp only [hs] at hrun
              exact Option.noConfusion hrun
          | some sats =>
              simp only [hs] at hrun
              cases hc : calculateOrder inp.graph inp.rootName inp.graphFuel with
              | error cyc =>
                  simp only [hc] at hrun
                  injection hrun with h
                  subst h
                  simp
              | ok order =>
                  simp only [hc] at hrun
                  cases hca : composeAfterOrder (order.dropLast.map inp.moduleData)
                      inp.rootData ⟨[], [], []⟩ with
                  | mk stf rest =>
                      obtain ⟨m, linked⟩ := rest
                      simp only [hca] at hrun
                      injection hrun with h
                      subst h
                      have hiff := composeAfterOrder_errors_iff
                        (order.dropLast.map inp.moduleData) inp.rootData ⟨[], [], []⟩
                      rw [hca] at hiff
                      simpa using hiff

/-- Witness for claim C1 at a fully successful concrete input: empty
diagnostics and a present module. -/
theorem outcome_exclusive_diagnostics_or_module_witness :
    (([] : List String) ≠ [] ↔ (some (⟨7⟩ : NagaModule) : Option NagaModule) = none) :=
  outcome_exclusive_diagnostics_or_module inpOk rfl
    ⟨[], some ⟨7⟩, [], [], [], true⟩ rfl

/-! Cycle detection lemmas -/

theorem dfsRun_cons (graph : List (String × List String)) (fuel : Nat)
    (stack visited order : List String) (n : String) (rest : List String) :
    dfsRun graph (fuel + 1) stack visited order (n :: rest) =
      if n ∈ stack then Except.error (cycleOf stack n)
      else if n ∈ visited then dfsRun graph fuel stack visited order rest
      else
        match dfsRun graph fuel (stack ++ [n]) visited order
            ((List.lookup n graph).getD []) with
        | Except.error e => Except.error e
        | Except.ok (v, o) => dfsRun graph fuel stack (v ++ [n]) (o ++ [n]) rest := rfl

theorem cycleOf_eval (root A B : String) (hrA : root ≠ A) :
    cycleOf [root, A, B] A = [A, B, A] := by
  simp [cycleOf, List.dropWhile_cons, hrA]

theorem dfs_cycle_run (root A B : String) (f : Nat) (hAB : A ≠ B)
    (hArt : A ≠ root) (hBrt : B ≠ root) :
    dfsRun [(root, [A]), (A, [B]), (B, [A])] (f + 1 + 1 + 1 + 1) [] [] [] [root] =
      Except.error [A, B, A] := by
  have hBA : B ≠ A := fun h => hAB h.symm
  have hrA : root ≠ A := fun h => hArt h.symm
  have hlkroot : List.lookup root [(root, [A]), (A, [B]), (B, [A])] = some [A] := by
    rw [lookup_cons_eq_if, if_pos rfl]
  have hlkA : List.lookup A [(root, [A]), (A, [B]), (B, [A])] = some [B] := by
    rw [lookup_cons_eq_if, if_neg hArt, lookup_cons_eq_if, if_pos rfl]
  have hlkB : List.lookup B [(root, [A]), (A, [B]), (B, [A])] = some [A] := by
    rw [lookup_cons_eq_if, if_neg hBrt, lookup_cons_eq_if, if_neg hBA,
      lookup_cons_eq_if, if_pos rfl]
  have h3 : dfsRun [(root, [A]), (A, [B]), (B, [A])] (f + 1) [root, A, B] [] [] [A] =
      Except.error [A, B, A] := by
    rw [dfsRun_cons, if_pos (by simp), cycleOf_eval root A B hrA]
  have h2 : dfsRun [(root, [A]), (A, [B]), (B, [A])] (f + 1 + 1) [root, A] [] [] [B] =
      Except.error [A, B, A] := by
    rw [dfsRun_cons, if_neg (by simp [hBrt, hBA]), if_neg (List.not_mem_nil B), hlkB]
    simp only [Option.getD_some, List.cons_append, List.nil_append]
    rw [h3]
  have h1 : dfsRun [(root, [A]), (A, [B]), (B, [A])] (f + 1 + 1 + 1) [root] [] [] [A] =
      Except.error [A, B, A] := by
    rw [dfsRun_cons, if_neg (by simp [hArt]), if_neg (List.not_mem_nil A), hlkA]
    simp only [Option.getD_some, List.cons_append, List.nil_append]
    rw [h2]
  rw [dfsRun_cons, if_neg (List.not_mem_nil root), if_neg (List.not_mem_nil root),
    hlkroot]
  simp only [Option.getD_some, List.nil_append]
  rw [h1]

/-- Claim C3 (amended): when the file import graph is the cycle shape
root imports A, A imports B, B imports A, every produced outcome (root
text readable) carries exactly the cyclic-import diagnostic naming both A
and B, submits no module of the import order, produces no module and does
not link the root; registry includes satisfied during the preceding
requirement-saturation phase may however already have been submitted (see
the counterexample). -/
theorem cyclic_import_diagnostic_and_no_order_submission
    (inp : ComposeInput) (A B : String) (out : ComposeOutcome)
    (hAB : A ≠ B) (hArt : A ≠ inp.rootName) (hBrt : B ≠ inp.rootName)
    (hgraph : inp.graph = [(inp.rootName, [A]), (A, [B]), (B, [A])])
    (hfuel : 4 ≤ inp.graphFuel) (hroot : inp.rootText.isSome)
    (hrun : composeModel inp = some out) :
    out.errors = [cycleErrorMsg [A, B, A]] ∧ out.orderSubmissions = [] ∧
    out.module = none ∧ out.rootLinked = false := by
  obtain ⟨k, hk⟩ : ∃ k, inp.graphFuel = k + 1 + 1 + 1 + 1 :=
    ⟨inp.graphFuel - 4, by omega⟩
  have hcalc : calculateOrder inp.graph inp.rootName inp.graphFuel =
      Except.error [A, B, A] := by
    unfold calculateOrder
    rw [hgraph, hk, dfs_cycle_run inp.rootName A B k hAB hArt hBrt]
  unfold composeModel at hrun
  cases hb : buildShaderDefs inp.debugAssertions inp.constants with
  | error e =>
      simp only [hb] at hrun
      exact Option.noConfusion hrun
  | ok defs =>
      simp only [hb] at hrun
      cases ht : inp.rootText with
      | none => rw [ht] at hroot; exact absurd hroot (by simp)
      | some txt =>
          simp only [ht] at hrun
          cases hs : satLoop inp.includes inp.satOracle inp.satFuel 0
              (dedupList inp.rootReqs) [] with
          | none =>
              simp only [hs] at hrun
              exact Option.noConfusion hrun
          | some sats =>
              simp only [hs, hcalc] at hrun
              injection hrun with h
              subst h
              exact ⟨rfl, rfl, rfl, rfl⟩

/-- Witness for the amended claim C3 at the concrete input of the
counterexample. -/
theorem cyclic_import_diagnostic_and_no_order_submission_witness :
    [cycleErrorMsg ["a.wgsl", "b.wgsl", "a.wgsl"]] =
        [cycleErrorMsg ["a.wgsl", "b.wgsl", "a.wgsl"]] ∧
    ([] : List String) = [] ∧ (none : Option NagaModule) = none ∧ false = false :=
  cyclic_import_diagnostic_and_no_order_submission inpC3 "a.wgsl" "b.wgsl"
    ⟨[cycleErrorMsg ["a.wgsl", "b.wgsl", "a.wgsl"]], none, ["v"], [], [], false⟩
    (by decide) (by decide) (by decide) rfl (by decide) rfl rfl

/-- Claim C3 counterexample: with the registry include v required by the
root alongside the cyclic file imports, the composer has already been
handed module v during requirement saturation when the cycle is detected
(the saturation submissions are non-empty), so module composition IS
attempted for a module of that invocation. -/
theorem cyclic_import_composition_attempted_counterexample :
    composeModel inpC3 = some ⟨[cycleErrorMsg ["a.wgsl", "b.wgsl", "a.wgsl"]],
      none, ["v"], [], [], false⟩ ∧
    (["v"] : List String) ≠ [] :=
  ⟨rfl, by decide⟩

/-! Import graph builder lemmas -/

theorem buildGraph_invariant (fs : List (List String × FileNode)) :
    ∀ (fuel : Nat) (wl : List (List String × List String))
      (visited log L : List (List String)),
    buildGraph fs fuel wl visited log = Except.ok L →
    visited = log → log.Nodup →
    L.Nodup ∧ (∀ p ∈ log, p ∈ L) ∧
      (∀ d r, (d, r) ∈ wl → resolveReq d r ∈ L) := by
  intro fuel
  induction fuel with
  | zero =>
      intro wl visited log L hrun hvl hnd
      cases wl with
      | nil =>
          have hL : log = L := by injection hrun
          subst hL
          exact ⟨hnd, fun p hp => hp,
            fun d r hm => absurd hm (List.not_mem_nil (d, r))⟩
      | cons hd tl => exact Except.noConfusion hrun
  | succ fuel ih =>
      intro wl visited log L hrun hvl hnd
      cases wl with
      | nil =>
          have hL : log = L := by injection hrun
          subst hL
          exact ⟨hnd, fun p hp => hp,
            fun d r hm => absurd hm (List.not_mem_nil (d, r))⟩
      | cons hd tl =>
          obtain ⟨dir, req⟩ := hd
          by_cases hv : resolveReq dir req ∈ visited
          · have hstep : buildGraph fs (fuel + 1) ((dir, req) :: tl) visited log =
                buildGraph fs fuel tl visited log := by
              show (if resolveReq dir req ∈ visited then _ else _) = _
              rw [if_pos hv]
            rw [hstep] at hrun
            obtain ⟨h1, h2, h3⟩ := ih tl visited log L hrun hvl hnd
            refine ⟨h1, h2, ?_⟩
            intro d r hm
            rcases List.mem_cons.mp hm with heq | hmtl
            · obtain ⟨hd1, hd2⟩ := Prod.mk.injEq .. ▸ heq
              cases heq
              exact h2 _ (hvl ▸ hv)
            · exact h3 d r hmtl
          · have hstep : buildGraph fs (fuel + 1) ((dir, req) :: tl) visited log =
                (match List.lookup (resolveReq dir req) fs with
                | none => Except.error "file not found"
                | some node =>
                    buildGraph fs fuel
                      (tl ++ node.reqs.map
                        (fun r => ((resolveReq dir req).dropLast, r)))
                      (visited ++ [resolveReq dir req])
                      (log ++ [resolveReq dir req])) := by
              show (if resolveReq dir req ∈ visited then _ else _) = _
              rw [if_neg hv]
            rw [hstep] at hrun
            cases hlk : List.lookup (resolveReq dir req) fs with
            | none =>
                rw [hlk] at hrun
                exact Except.noConfusion hrun
            | some node =>
                rw [hlk] at hrun
                have hvl' : visited ++ [resolveReq dir req] =
                    log ++ [resolveReq dir req] := by rw [hvl]
                have hnd' : (log ++ [resolveReq dir req]).Nodup := by
                  rw [List.nodup_append]
                  refine ⟨hnd, List.nodup_singleton _, ?_⟩
                  intro p hp hps
                  rw [List.mem_singleton] at hps
                  subst hps
                  exact hv (hvl ▸ hp)
                obtain ⟨h1, h2, h3⟩ := ih _ _ _ L hrun hvl' hnd'
                refine ⟨h1, fun p hp => h2 p (List.mem_append_left _ hp), ?_⟩
                intro d r hm
                rcases List.mem_cons.mp hm with heq | hmtl
                · cases heq
                  exact h2 _ (List.mem_append_right _ (List.mem_singleton_self _))
                · exact h3 d r (List.mem_append_left _ hmtl)

/-- Claim C7: two distinct requirement spellings that resolve to the same
physical origin receive one and the same canonical name (a current
directory segment is dropped on resolution, and the canonical name is a
function of the resolved origin alone), and every file named by the
worklist is read exactly once per resolution: the read log has no
duplicates and the resolved path of every requirement occurs in it
exactly once. -/
theorem countOcc_eq_zero (p : List String) (l : List (List String)) (h : p ∉ l) :
    countOcc p l = 0 := by
  induction l with
  | nil => rfl
  | cons q rest ih =>
      have hqp : ¬ q = p := fun hq => h (hq ▸ List.mem_cons_self q rest)
      have hrest : p ∉ rest := fun hr => h (List.mem_cons_of_mem q hr)
      simp [countOcc, hqp, ih hrest]

theorem countOcc_eq_one (p : List String) (l : List (List String))
    (hnd : l.Nodup) (hm : p ∈ l) : countOcc p l = 1 := by
  induction l with
  | nil => exact absurd hm (List.not_mem_nil p)
  | cons q rest ih =>
      rw [List.nodup_cons] at hnd
      rcases List.mem_cons.mp hm with hpq | hm2
      · subst hpq
        simp [countOcc, countOcc_eq_zero p rest hnd.1]
      · have hqp : ¬ q = p := fun hq => hnd.1 (hq ▸ hm2)
        simp [countOcc, hqp, ih hnd.2 hm2]

theorem import_diamond_single_read_and_name
    (fs : List (List String × FileNode)) (fuel : Nat)
    (wl : List (List String × List String)) (L : List (List String))
    (hrun : buildGraph fs fuel wl [] [] = Except.ok L) :
    (∀ d r, resolveReq d ("." :: r) = resolveReq d r) ∧
    (∀ d r₁ r₂, resolveReq d r₁ = resolveReq d r₂ →
      canonName (resolveReq d r₁) = canonName (resolveReq d r₂)) ∧
    (∀ d r, (d, r) ∈ wl → countOcc (resolveReq d r) L = 1) := by
  obtain ⟨hnd, _, hwl⟩ :=
    buildGraph_invariant fs fuel wl [] [] L hrun rfl List.nodup_nil
  refine ⟨?_, fun d r₁ r₂ h => by rw [h], ?_⟩
  · intro d r
    simp [resolveReq, List.filter_cons]
  · intro d r hmem
    exact countOcc_eq_one (resolveReq d r) L hnd (hwl d r hmem)

/-- Witness for claim C7: the requirement spellings dot-slash util and
util from the same directory resolve alike and the file is read once. -/
theorem import_diamond_single_read_and_name_witness :
    resolveReq [] ("." :: ["util.wgsl"]) = resolveReq [] ["util.wgsl"] ∧
    countOcc (resolveReq [] [".", "util.wgsl"]) [["util.wgsl"]] = 1 := by
  have h := import_diamond_single_read_and_name fsC7 3
    [([], [".", "util.wgsl"]), ([], ["util.wgsl"])] [["util.wgsl"]] rfl
  exact ⟨h.1 [] ["util.wgsl"], h.2.2 [] [".", "util.wgsl"] (by simp)⟩

end WgslOil

